import Mathlib

/-!
Verification of the Hummock state-store core, embedded from
`src/rust/storage/src/hummock/mod.rs`.

The repository ships only `mod.rs` of the `hummock` module; the submodules it
uses (`table.rs`, `key.rs`, `cloud.rs`, `snapshot.rs`, `iterator.rs`,
`compactor.rs`, `version_manager.rs`, `value.rs`, `error.rs`, `mon.rs`) are not
present.  Definitions for those parts are modelled from the specification and
carry a doc comment starting with `Modelled from the spec:`.  Everything else is
a direct shallow embedding of the code in `mod.rs`: the async storage methods
become pure state-passing functions over a `World` record that gathers the
shared state behind the `Arc`s of `HummockStorage` (the atomic `unique_id`, the
version manager, the object store contents, the metrics counter, the
compaction-notify channel and its single receiver).  The object store is an
external collaborator, so the outcome of an upload is passed to `write_batch`
as an explicit parameter, and the outcome of fetching a table on the read path
is an explicit oracle.  Machine integers are `Nat` with an explicit
`% 2 ^ 64` where the Rust code uses wrapping `u64` arithmetic.
-/

namespace Hummock

/-- Modulus of the Rust `u64` type (`2 ^ 64`). -/
def U64 : Nat := 18446744073709551616

/-- Largest value of the Rust `u64` type (`u64::MAX`). -/
def U64MAX : Nat := 18446744073709551615

/-- Modelled from the spec: `value.rs` is not in src/.  A Hummock value is
either `Put(bytes)` or the `Delete` tombstone. -/
inductive HummockValue (T : Type) where
  | put (v : T)
  | delete
deriving DecidableEq, Repr

/-- Modelled from the spec: `error.rs` is not in src/.  The error kinds listed
in section 7 of the specification. -/
inductive HummockError where
  | objectStoreError
  | invalidSST
  | checksumMismatch
  | invalidKey
  | versionConflict
  | aborted
deriving DecidableEq, Repr

/-- Byte strings are lists of naturals; the embedding never needs the bound
`< 256` because only lexicographic comparison and lengths matter. -/
abbrev Bytes := List Nat

/-- Big-endian encoding of a `u64` into 8 bytes. -/
def be64 (n : Nat) : Bytes :=
  [n / 72057594037927936 % 256, n / 281474976710656 % 256,
   n / 1099511627776 % 256, n / 4294967296 % 256,
   n / 16777216 % 256, n / 65536 % 256, n / 256 % 256, n % 256]

/-- Big-endian decoding of a byte list into a natural. -/
def beDecode (l : Bytes) : Nat := l.foldl (fun a b => a * 256 + b) 0

/-- Modelled from the spec: `key.rs` is not in src/.  Section 4.1:
`key_with_epoch(uk, e) = uk || BE64(u64::MAX - e)`; `mod.rs` calls this
function `key_with_ts` with the table id as the epoch. -/
def key_with_ts (uk : Bytes) (ts : Nat) : Bytes := uk ++ be64 (U64MAX - ts)

/-- Modelled from the spec: `key.rs` is not in src/.  Section 4.1:
`user_key(fk) = fk[..fk.len() - 8]`. -/
def user_key (fk : Bytes) : Bytes := fk.take (fk.length - 8)

/-- Modelled from the spec: `key.rs` is not in src/.  Section 4.1:
`epoch_of(fk) = u64::MAX - BE64_decode(fk[len-8..])`. -/
def epoch_of (fk : Bytes) : Nat := U64MAX - beDecode (fk.drop (fk.length - 8))

/-- Lexicographic strict order on byte strings, as Rust orders `Vec<u8>`:
a proper prefix sorts before its extensions. -/
def ukLt : Bytes → Bytes → Bool
  | _, [] => false
  | [], _ :: _ => true
  | a :: as, b :: bs => decide (a < b) || (decide (a = b) && ukLt as bs)

/-- Big-endian encoding of a `u32` into 4 bytes, used for length prefixes. -/
def be32 (n : Nat) : Bytes :=
  [n / 16777216 % 256, n / 65536 % 256, n / 256 % 256, n % 256]

/-- Modelled from the spec: `value.rs` is not in src/.  Section 4.1: a value is
serialized as a 1-byte tag plus, for `Put`, length-prefixed bytes. -/
def encodeValue : HummockValue Bytes → Bytes
  | .put v => 0 :: (be32 v.length ++ v)
  | .delete => [1]

/-- Modelled from the spec: `table.rs` is not in src/.  One `(FK, V)` entry of a
data block, written as a length-prefixed full key followed by the serialized
value. -/
def encodeEntry (fk : Bytes) (v : HummockValue Bytes) : Bytes :=
  be32 fk.length ++ fk ++ encodeValue v

/-- Modelled from the spec: `table.rs` (`TableBuilder::finish`) is not in src/.
The finished data blocks of a table are the concatenated encoded entries; the
claims below depend only on the identity and length of this blob, so the
restart-point prefix compression, block trailers and checksums of section 4.2
are not reproduced byte for byte. -/
def tableBlocks (es : List (Bytes × HummockValue Bytes)) : Bytes :=
  es.foldr (fun e acc => encodeEntry e.1 e.2 ++ acc) []

/-- Modelled from the spec: `table.rs` is not in src/.  An immutable sorted
table: the 64-bit table id and the `(full key, value)` entries it stores. -/
structure Table where
  id : Nat
  entries : List (Bytes × HummockValue Bytes)
deriving DecidableEq, Repr

/-- Modelled from the spec: `version_manager.rs` is not in src/.  A `Version`
is an immutable snapshot of the level set; the claims only read L0, so a
Version is its ordered list of tables, newest first. -/
abbrev Version := List Table

/-- All `(epoch, value)` entries a table holds for one user key. -/
def tableEntriesFor (t : Table) (k : Bytes) : List (Nat × HummockValue Bytes) :=
  t.entries.filterMap fun p =>
    if user_key p.1 = k then some (epoch_of p.1, p.2) else none

/-- All `(epoch, value)` entries a version holds for one user key. -/
def versionEntriesFor (v : Version) (k : Bytes) : List (Nat × HummockValue Bytes) :=
  v.foldr (fun t acc => tableEntriesFor t k ++ acc) []

/-- Keep the entry with the larger epoch. -/
def pickLatest (acc : Option (Nat × HummockValue Bytes)) (e : Nat × HummockValue Bytes) :
    Option (Nat × HummockValue Bytes) :=
  match acc with
  | none => some e
  | some b => if b.1 < e.1 then some e else some b

/-- The entry with the largest epoch a version holds for one user key. -/
def latestEntry (v : Version) (k : Bytes) : Option (Nat × HummockValue Bytes) :=
  (versionEntriesFor v k).foldl pickLatest none

/-- Result of touching every table of a version through the object store:
the first fetch failure, if any.  The fetch oracle stands for the external
object store and possible corruption detected while reading. -/
def fetchAll (v : Version) (fetch : Nat → Except HummockError Unit) :
    Option HummockError :=
  match v with
  | [] => none
  | t :: ts =>
    match fetch t.id with
    | .error e => some e
    | .ok _ => fetchAll ts fetch

/-- Modelled from the spec: `snapshot.rs` and `iterator.rs` are not in src/.
A point read through a pinned version: any failure while touching a table
surfaces as `Err` (section 7); otherwise the entry with the largest epoch for
the user key decides the result (section 8, P2), with `Delete` giving `None`. -/
def snapshotGet (v : Version) (fetch : Nat → Except HummockError Unit) (k : Bytes) :
    Except HummockError (Option Bytes) :=
  match fetchAll v fetch with
  | some e => .error e
  | none =>
    match latestEntry v k with
    | some (_, .put bytes) => .ok (some bytes)
    | _ => .ok none

/-- Fetch oracle for a run in which the object store never fails. -/
def okFetch : Nat → Except HummockError Unit := fun _ => .ok ()

/-- Fetch oracle for a run in which every fetch reports a checksum mismatch. -/
def badFetch : Nat → Except HummockError Unit := fun _ => .error .checksumMismatch

/-- The shared state behind one `HummockStorage` (shared by all its clones):
the `unique_id` atomic, the version manager (current version and the pinned
versions, indexed by pin order), the object store contents keyed by table id,
the `hummock_put_bytes` counter, the number of queued compaction
notifications, whether the compaction-notify receiver has been taken out of
the shared `Option`, and the `stats_enabled` option. -/
structure World where
  unique_id : Nat
  current : Version
  pinned : List Version
  objects : List (Nat × Bytes)
  put_bytes : Nat
  notify_count : Nat
  rx_taken : Bool
  stats_enabled : Bool
deriving DecidableEq, Repr

/-- The state `HummockStorage::new` builds: id counter 0, empty version
manager, receiver present, counter 0. -/
def freshWorld (statsEnabled : Bool) : World :=
  { unique_id := 0, current := [], pinned := [], objects := [], put_bytes := 0,
    notify_count := 0, rx_taken := false, stats_enabled := statsEnabled }

/-- Effect of `unique_id.fetch_add(1, SeqCst)` on the state (the fetched value
is the old `unique_id`). -/
def bumpEpoch (w : World) : World :=
  { w with unique_id := (w.unique_id + 1) % U64 }

/-- The `for (k, v) in kv_pairs` loop of `write_batch`: each key is asserted
non-empty (`assert!(!k.is_empty())` in `mod.rs`), extended with the table id
via `key_with_ts`, and handed to `TableBuilder::add`.  Modelled from the spec
for the builder part: `table.rs` is not in src/, and section 4.5 step 1 has the
write path assert that the pairs are strictly increasing by user key.  `none`
models an assertion panic; on success the built entry list is returned. -/
def addAll (tableId : Nat) (last : Option Bytes) :
    List (Bytes × HummockValue Bytes) → Option (List (Bytes × HummockValue Bytes))
  | [] => some []
  | (k, v) :: rest =>
    if k = [] then none
    else if (match last with | none => true | some lk => ukLt lk k) then
      (addAll tableId (some k) rest).map fun es => (key_with_ts k tableId, v) :: es
    else none

/-- `HummockStorage::write_batch` from `mod.rs`: allocate the epoch with
`fetch_add`, feed all pairs through the builder, return `Ok` if the builder is
empty, otherwise finish the builder, upload the blocks (the object-store
outcome is the explicit `upload` parameter), publish the table at L0, bump the
`put_bytes` counter when stats are enabled, and send a compaction
notification.  `none` models an assertion panic inside the call. -/
def write_batch (w : World) (kv_pairs : List (Bytes × HummockValue Bytes))
    (upload : Except HummockError Unit) :
    Option (Except HummockError Unit × World) :=
  match addAll w.unique_id none kv_pairs with
  | none => none
  | some es =>
    if es.isEmpty then some (.ok (), bumpEpoch w)
    else
      match upload with
      | .error e => some (.error e, bumpEpoch w)
      | .ok _ =>
        some (.ok (),
          { bumpEpoch w with
            current := { id := w.unique_id, entries := es } :: w.current,
            objects := w.objects ++ [(w.unique_id, tableBlocks es)],
            put_bytes :=
              if w.stats_enabled then (w.put_bytes + (tableBlocks es).length) % U64
              else w.put_bytes,
            notify_count := w.notify_count + 1 })

/-- `HummockStorage::get_snapshot` from `mod.rs`, with the pinning itself
modelled from the spec (`snapshot.rs` is not in src/): a new snapshot pins the
current version and is handed back as an index into the pinned list. -/
def get_snapshot (w : World) : Nat × World :=
  (w.pinned.length, { w with pinned := w.pinned ++ [w.current] })

/-- Read a previously pinned snapshot: `none` when the index was never
pinned. -/
def readPinned (w : World) (i : Nat) (fetch : Nat → Except HummockError Unit)
    (k : Bytes) : Option (Except HummockError (Option Bytes)) :=
  (w.pinned.get? i).map fun V => snapshotGet V fetch k

/-- `HummockStorage::get` from `mod.rs`: pin a fresh snapshot of the current
version and read it. -/
def hummock_get (w : World) (fetch : Nat → Except HummockError Unit) (k : Bytes) :
    Except HummockError (Option Bytes) :=
  snapshotGet w.current fetch k

/-- Modelled from the spec: `version_manager.rs` is not in src/.
`commit_compaction` publishes a new current version (the compaction outputs
spliced in place of the inputs) or fails with `VersionConflict` when an input
was concurrently retracted; pinned versions are immutable and untouched
(section 4.3).  Uploading the outputs happens before this step and is not part
of it. -/
def commitCompaction (w : World) (out : Version) (conflict : Bool) :
    Except HummockError Unit × World :=
  if conflict then (.error .versionConflict, w)
  else (.ok (), { w with current := out })

/-- Every table of a version has its id, and every entry its epoch, below
`n`. -/
def versionBelow (v : Version) (n : Nat) : Prop :=
  ∀ t ∈ v, t.id < n ∧ ∀ p ∈ t.entries, epoch_of p.1 < n

/-- Representation invariant of the shared state: the id counter is a `u64`
value, and every table id and entry epoch in the current and the pinned
versions is below the counter.  It holds for `freshWorld` and is preserved by
the write path. -/
def WorldInv (w : World) : Prop :=
  w.unique_id < U64 ∧ versionBelow w.current w.unique_id ∧
    ∀ V ∈ w.pinned, versionBelow V w.unique_id

/-- The invariant is checkable on concrete states. -/
instance (v : Version) (n : Nat) : Decidable (versionBelow v n) := by
  unfold versionBelow; infer_instance

/-- The invariant is checkable on concrete states. -/
instance (w : World) : Decidable (WorldInv w) := by
  unfold WorldInv versionBelow; infer_instance

/-- Run a sequence of `write_batch` calls (each with its upload outcome) and
record the epoch `fetch_add` returned for each call; `none` when some call
panics. -/
def runWrites (w : World) :
    List (List (Bytes × HummockValue Bytes) × Except HummockError Unit) →
    Option (List Nat × World)
  | [] => some ([], w)
  | (b, up) :: rest =>
    match write_batch w b up with
    | none => none
    | some (_, w1) => (runWrites w1 rest).map fun p => (w.unique_id :: p.1, p.2)

/-- Total length of the blobs stored in the object store. -/
def blobLenSum (objs : List (Nat × Bytes)) : Nat :=
  (objs.map fun o => o.2.length).sum

/-- The byte blob the write path uploads for a batch. -/
def writeBlob (w : World) (b : List (Bytes × HummockValue Bytes)) : Bytes :=
  tableBlocks (b.map fun p => (key_with_ts p.1 w.unique_id, p.2))

/-- The state the success path of `write_batch` reaches on a non-empty batch:
epoch consumed, the new table published at the head of L0, the blob uploaded,
the counter bumped when stats are enabled, one notification sent. -/
def publishWrite (w : World) (b : List (Bytes × HummockValue Bytes)) : World :=
  { bumpEpoch w with
    current :=
      { id := w.unique_id,
        entries := b.map fun p => (key_with_ts p.1 w.unique_id, p.2) } :: w.current,
    objects := w.objects ++ [(w.unique_id, writeBlob w b)],
    put_bytes :=
      if w.stats_enabled then (w.put_bytes + (writeBlob w b).length) % U64
      else w.put_bytes,
    notify_count := w.notify_count + 1 }

/-- The setup line of `start_compactor` in `mod.rs`:
`self.rx.lock().take().unwrap()`.  When the receiver is still in the shared
`Option`, it is taken out; when a previous call already took it, `take`
yields `None` and the `unwrap` panics, modelled as `none`. -/
def take_compact_notifier (w : World) : Option World :=
  if w.rx_taken then none else some { w with rx_taken := true }

/-- Decidable equality for `Except`, needed to evaluate the compactor trace
theorems on concrete inputs. -/
instance {e a : Type} [DecidableEq e] [DecidableEq a] : DecidableEq (Except e a)
  | .ok x, .ok y =>
    match decEq x y with
    | isTrue h => isTrue (by rw [h])
    | isFalse h => isFalse (by intro hh; cases hh; exact h rfl)
  | .ok _, .error _ => isFalse (by intro h; cases h)
  | .error _, .ok _ => isFalse (by intro h; cases h)
  | .error x, .error y =>
    match decEq x y with
    | isTrue h => isTrue (by rw [h])
    | isFalse h => isFalse (by intro hh; cases hh; exact h rfl)

/-- One wake-up of the compactor loop: either a compaction notification
(carrying the raw result of the compaction run it triggers) or the stop
signal. -/
inductive CompactorEvent where
  | notify (jobResult : Except HummockError Unit)
  | stop
deriving DecidableEq, Repr

/-- Modelled from the spec: `compactor.rs` is not in src/.  Section 7: the
compactor logs and swallows `VersionConflict` and retries on next wake; other
errors of the run propagate. -/
def compactOnce (jobResult : Except HummockError Unit) : Except HummockError Unit :=
  match jobResult with
  | .error .versionConflict => .ok ()
  | r => r

/-- The `select!` loop of `start_compactor` in `mod.rs` over a finite trace of
wake-ups: a notification runs `Compactor::compact` and propagates its error
via `?`; the stop signal breaks the loop, after which `Ok(())` is returned.
`none` means the trace ended with the task still blocked in `select!`. -/
def compactorLoop : List CompactorEvent → Option (Except HummockError Unit)
  | [] => none
  | .stop :: _ => some (.ok ())
  | .notify j :: rest =>
    match compactOnce j with
    | .ok _ => compactorLoop rest
    | .error e => some (.error e)

/-- `HummockStorage::start_compactor` from `mod.rs`: take the sole receiver
out of the shared `Option` (panicking if it is gone), then run the loop.  The
outer `Option` is the panic, the inner one distinguishes a still-running task
from a returned one. -/
def start_compactor (w : World) (events : List CompactorEvent) :
    Option (World × Option (Except HummockError Unit)) :=
  match take_compact_notifier w with
  | none => none
  | some w1 => some (w1, compactorLoop events)

/-- Concrete two-entry batch used by the evaluation theorems below. -/
def sampleBatch : List (Bytes × HummockValue Bytes) :=
  [([1], .put [7]), ([2], .delete)]

/-- The state reached by writing `sampleBatch` into a fresh stats-enabled
store with a successful upload. -/
def sampleWorld1 : World :=
  { unique_id := 1,
    current :=
      [{ id := 0,
         entries :=
           [([1, 255, 255, 255, 255, 255, 255, 255, 255], .put [7]),
            ([2, 255, 255, 255, 255, 255, 255, 255, 255], .delete)] }],
    pinned := [],
    objects :=
      [(0, [0, 0, 0, 9, 1, 255, 255, 255, 255, 255, 255, 255, 255,
            0, 0, 0, 0, 1, 7,
            0, 0, 0, 9, 2, 255, 255, 255, 255, 255, 255, 255, 255, 1])],
    put_bytes := 33,
    notify_count := 1,
    rx_taken := false,
    stats_enabled := true }

/-! Helper lemmas: key encoding round trips and the byte order. -/

theorem beDecode_be64 {n : Nat} (h : n < U64) : beDecode (be64 n) = n := by
  simp only [be64, beDecode, List.foldl_cons, List.foldl_nil, U64] at *
  omega

theorem user_key_key_with_ts (uk : Bytes) (ts : Nat) :
    user_key (key_with_ts uk ts) = uk := by
  have hlen : (be64 (U64MAX - ts)).length = 8 := rfl
  simp [user_key, key_with_ts, hlen, List.take_left]

theorem epoch_of_key_with_ts (uk : Bytes) {ts : Nat} (h : ts < U64) :
    epoch_of (key_with_ts uk ts) = ts := by
  have hlen : (be64 (U64MAX - ts)).length = 8 := rfl
  have hdec : beDecode (be64 (U64MAX - ts)) = U64MAX - ts := by
    apply beDecode_be64
    simp only [U64, U64MAX]
    omega
  simp only [epoch_of, key_with_ts, List.length_append, hlen,
    Nat.add_sub_cancel, List.drop_left, hdec]
  simp only [U64, U64MAX] at *
  omega

theorem ukLt_irrefl (l : Bytes) : ukLt l l = false := by
  induction l with
  | nil => rfl
  | cons a as ih => simp [ukLt, ih]

theorem ukLt_ne {a b : Bytes} (h : ukLt a b = true) : a ≠ b := by
  intro heq
  subst heq
  rw [ukLt_irrefl] at h
  cases h

theorem ukLt_trans {a b c : Bytes} (h1 : ukLt a b = true) (h2 : ukLt b c = true) :
    ukLt a c = true := by
  induction a generalizing b c with
  | nil =>
    cases b with
    | nil => simp [ukLt] at h1
    | cons y ys =>
      cases c with
      | nil => simp [ukLt] at h2
      | cons z zs => simp [ukLt]
  | cons x xs ih =>
    cases b with
    | nil => simp [ukLt] at h1
    | cons y ys =>
      cases c with
      | nil => simp [ukLt] at h2
      | cons z zs =>
        simp only [ukLt, Bool.or_eq_true, Bool.and_eq_true, decide_eq_true_eq] at h1 h2 ⊢
        rcases h1 with h1 | ⟨rfl, h1⟩
        · rcases h2 with h2 | ⟨rfl, h2⟩
          · exact Or.inl (Nat.lt_trans h1 h2)
          · exact Or.inl h1
        · rcases h2 with h2 | ⟨rfl, h2⟩
          · exact Or.inl h2
          · exact Or.inr ⟨rfl, ih h1 h2⟩

/-! Helper lemmas: the builder loop `addAll`. -/

theorem addAll_some_eq {tid : Nat} :
    ∀ {b : List (Bytes × HummockValue Bytes)} {last es},
      addAll tid last b = some es →
      es = b.map fun p => (key_with_ts p.1 tid, p.2) := by
  intro b
  induction b with
  | nil =>
    intro last es h
    simp only [addAll, Option.some.injEq] at h
    simp [← h]
  | cons q rest ih =>
    intro last es h
    obtain ⟨k, v⟩ := q
    simp only [addAll] at h
    split at h
    · cases h
    · split at h
      · rw [Option.map_eq_some'] at h
        obtain ⟨es', hes', rfl⟩ := h
        simp [List.map_cons, ih hes']
      · cases h

theorem addAll_some_lb {tid : Nat} :
    ∀ {b : List (Bytes × HummockValue Bytes)} {lk es},
      addAll tid (some lk) b = some es → ∀ p ∈ b, ukLt lk p.1 = true := by
  intro b
  induction b with
  | nil => intro lk es _ p hp; cases hp
  | cons q rest ih =>
    intro lk es h p hp
    obtain ⟨k, v⟩ := q
    simp only [addAll] at h
    split at h
    · cases h
    · split at h
      case isTrue hlt =>
        rw [Option.map_eq_some'] at h
        obtain ⟨es', hes', -⟩ := h
        rw [List.mem_cons] at hp
        rcases hp with rfl | hp
        · exact hlt
        · exact ukLt_trans hlt (ih hes' p hp)
      · cases h

theorem addAll_some_pairwise {tid : Nat} :
    ∀ {b : List (Bytes × HummockValue Bytes)} {last es},
      addAll tid last b = some es →
      b.Pairwise fun p q => ukLt p.1 q.1 = true := by
  intro b
  induction b with
  | nil => intro last es _; exact List.Pairwise.nil
  | cons q rest ih =>
    intro last es h
    obtain ⟨k, v⟩ := q
    simp only [addAll] at h
    split at h
    · cases h
    · split at h
      · rw [Option.map_eq_some'] at h
        obtain ⟨es', hes', -⟩ := h
        exact List.Pairwise.cons (fun p hp => addAll_some_lb hes' p hp) (ih hes')
      · cases h

theorem addAll_some_keys_ne_nil {tid : Nat} :
    ∀ {b : List (Bytes × HummockValue Bytes)} {last es},
      addAll tid last b = some es → ∀ p ∈ b, p.1 ≠ [] := by
  intro b
  induction b with
  | nil => intro last es _ p hp; cases hp
  | cons q rest ih =>
    intro last es h p hp
    obtain ⟨k, v⟩ := q
    simp only [addAll] at h
    split at h
    case isTrue => cases h
    case isFalse hk =>
      split at h
      · rw [Option.map_eq_some'] at h
        obtain ⟨es', hes', -⟩ := h
        rw [List.mem_cons] at hp
        rcases hp with rfl | hp
        · exact hk
        · exact ih hes' p hp
      · cases h

theorem addAll_some_chain {tid : Nat}
    {b : List (Bytes × HummockValue Bytes)} {last es}
    (h : addAll tid last b = some es) :
    List.Chain' (fun x y => ukLt x y = true) (b.map Prod.fst) :=
  (List.pairwise_map.mpr (addAll_some_pairwise h)).chain'

/-! Helper lemmas: case analysis of `write_batch`. -/

theorem write_batch_cases {w : World} {b up r w'}
    (h : write_batch w b up = some (r, w')) :
    (b = [] ∧ r = .ok () ∧ w' = bumpEpoch w) ∨
    (b ≠ [] ∧
      addAll w.unique_id none b =
        some (b.map fun p => (key_with_ts p.1 w.unique_id, p.2)) ∧
      ((∃ e, up = .error e ∧ r = .error e ∧ w' = bumpEpoch w) ∨
       (up = .ok () ∧ r = .ok () ∧ w' = publishWrite w b))) := by
  unfold write_batch at h
  cases haa : addAll w.unique_id none b with
  | none => rw [haa] at h; cases h
  | some es =>
    rw [haa] at h
    dsimp only [] at h
    have hes := addAll_some_eq haa
    subst hes
    by_cases hb : b = []
    · subst hb
      simp only [List.map_nil, List.isEmpty_nil, if_true] at h
      rw [Option.some.injEq, Prod.mk.injEq] at h
      exact Or.inl ⟨rfl, h.1.symm, h.2.symm⟩
    · have hne : ((b.map fun p => (key_with_ts p.1 w.unique_id, p.2)).isEmpty) = false := by
        rw [List.isEmpty_eq_false_iff_exists_mem]
        obtain ⟨q, hq⟩ := List.exists_mem_of_ne_nil b hb
        exact ⟨_, List.mem_map_of_mem _ hq⟩
      rw [hne] at h
      simp only [Bool.false_eq_true, if_false] at h
      refine Or.inr ⟨hb, rfl, ?_⟩
      cases up with
      | error e =>
        rw [Option.some.injEq, Prod.mk.injEq] at h
        exact Or.inl ⟨e, rfl, h.1.symm, h.2.symm⟩
      | ok u =>
        rw [Option.some.injEq, Prod.mk.injEq] at h
        exact Or.inr ⟨rfl, h.1.symm, h.2.symm⟩

theorem write_batch_frame {w : World} {b up r w'}
    (h : write_batch w b up = some (r, w')) :
    w'.pinned = w.pinned ∧ w'.unique_id = (w.unique_id + 1) % U64 ∧
    w'.rx_taken = w.rx_taken ∧ w'.stats_enabled = w.stats_enabled := by
  rcases write_batch_cases h with ⟨-, -, rfl⟩ | ⟨-, -, ⟨e, -, -, rfl⟩ | ⟨-, -, rfl⟩⟩ <;>
    exact ⟨rfl, rfl, rfl, rfl⟩

/-! Helper lemmas: the read path. -/

theorem fetchAll_okFetch (v : Version) : fetchAll v okFetch = none := by
  induction v with
  | nil => rfl
  | cons t ts ih => simpa [fetchAll, okFetch] using ih

theorem versionEntriesFor_cons (t : Table) (v : Version) (k : Bytes) :
    versionEntriesFor (t :: v) k = tableEntriesFor t k ++ versionEntriesFor v k := rfl

theorem foldl_pickLatest_keep {E : Nat} {val : HummockValue Bytes}
    {l : List (Nat × HummockValue Bytes)} (h : ∀ x ∈ l, x.1 < E) :
    l.foldl pickLatest (some (E, val)) = some (E, val) := by
  induction l with
  | nil => rfl
  | cons x xs ih =>
    have hx := h x (List.mem_cons_self x xs)
    rw [List.foldl_cons]
    have hstep : pickLatest (some (E, val)) x = some (E, val) := by
      simp only [pickLatest]
      rw [if_neg (Nat.not_lt.mpr (Nat.le_of_lt hx))]
    rw [hstep]
    exact ih fun y hy => h y (List.mem_cons_of_mem x hy)

theorem mem_versionEntriesFor_lt {v : Version} {n : Nat} {k : Bytes}
    (hv : versionBelow v n) : ∀ x ∈ versionEntriesFor v k, x.1 < n := by
  induction v with
  | nil => intro x hx; cases hx
  | cons t ts ih =>
    intro x hx
    rw [versionEntriesFor_cons] at hx
    rcases List.mem_append.mp hx with hx | hx
    · rw [tableEntriesFor, List.mem_filterMap] at hx
      obtain ⟨p, hp, hpx⟩ := hx
      split at hpx
      · rw [Option.some.injEq] at hpx
        rw [← hpx]
        exact (hv t (List.mem_cons_self t ts)).2 p hp
      · cases hpx
    · exact ih (fun t' ht' => hv t' (List.mem_cons_of_mem t ht')) x hx

theorem filterMap_ext_mem {α β : Type} {f g : α → Option β} :
    ∀ {l : List α}, (∀ a ∈ l, f a = g a) → l.filterMap f = l.filterMap g := by
  intro l
  induction l with
  | nil => intro _; rfl
  | cons x xs ih =>
    intro h
    simp only [List.filterMap_cons, h x (List.mem_cons_self x xs),
      ih fun a ha => h a (List.mem_cons_of_mem x ha)]

theorem filterMap_single {E : Nat} {k : Bytes} {val : HummockValue Bytes} :
    ∀ {b : List (Bytes × HummockValue Bytes)},
      b.Pairwise (fun p q => ukLt p.1 q.1 = true) → (k, val) ∈ b →
      (b.filterMap fun p => if p.1 = k then some (E, p.2) else none) = [(E, val)] := by
  intro b
  induction b with
  | nil => intro _ hm; cases hm
  | cons q rest ih =>
    intro hp hm
    rw [List.pairwise_cons] at hp
    obtain ⟨hq, hrest⟩ := hp
    rw [List.mem_cons] at hm
    rcases hm with heq | hm
    · cases heq.symm
      have hnil : (rest.filterMap fun p => if p.1 = k then some (E, p.2) else none) = [] := by
        rw [List.filterMap_eq_nil_iff]
        intro p hp'
        exact if_neg fun hpk => ukLt_ne (hq p hp') hpk.symm
      simp [List.filterMap_cons, hnil]
    · have hne : q.1 ≠ k := ukLt_ne (hq (k, val) hm)
      simp only [List.filterMap_cons, if_neg hne]
      exact ih hrest hm

theorem tableEntriesFor_publish {uid : Nat} {k : Bytes} {val : HummockValue Bytes}
    {b : List (Bytes × HummockValue Bytes)} (hid : uid < U64)
    (hp : b.Pairwise fun p q => ukLt p.1 q.1 = true) (hm : (k, val) ∈ b) :
    tableEntriesFor
      { id := uid, entries := b.map fun p => (key_with_ts p.1 uid, p.2) } k
      = [(uid, val)] := by
  rw [tableEntriesFor]
  show ((b.map fun p => (key_with_ts p.1 uid, p.2)).filterMap fun p =>
      if user_key p.1 = k then some (epoch_of p.1, p.2) else none) = [(uid, val)]
  rw [List.filterMap_map]
  have hext : ∀ p ∈ b,
      ((fun p => if user_key p.1 = k then some (epoch_of p.1, p.2) else none) ∘
        fun p => (key_with_ts p.1 uid, p.2)) p =
      (fun p => if p.1 = k then some (uid, p.2) else none) p := by
    intro p _
    simp only [Function.comp_apply, user_key_key_with_ts, epoch_of_key_with_ts _ hid]
  rw [filterMap_ext_mem hext]
  exact filterMap_single hp hm

theorem get?_append_singleton {α : Type} : ∀ (l : List α) (a : α),
    (l ++ [a]).get? l.length = some a := by
  intro l a
  induction l with
  | nil => rfl
  | cons x xs ih =>
    rw [List.cons_append, List.length_cons, List.get?_cons_succ]
    exact ih

/-- Core of read-your-writes: a successful non-empty write publishes a table
whose entry for each written key is the strict maximum-epoch entry of the new
current version. -/
theorem write_batch_latest {w w' : World} {b up} {k : Bytes} {val : HummockValue Bytes}
    (hinv : WorldInv w) (hw : write_batch w b up = some (.ok (), w'))
    (hm : (k, val) ∈ b) :
    latestEntry w'.current k = some (w.unique_id, val) := by
  rcases write_batch_cases hw with ⟨rfl, -, -⟩ | ⟨-, haa, hrest⟩
  · cases hm
  · rcases hrest with ⟨e, -, hre, -⟩ | ⟨-, -, rfl⟩
    · cases hre
    · have hp := addAll_some_pairwise haa
      have htab := tableEntriesFor_publish hinv.1 hp hm
      show latestEntry
        ({ id := w.unique_id, entries := b.map fun p => (key_with_ts p.1 w.unique_id, p.2) }
          :: w.current) k = some (w.unique_id, val)
      rw [latestEntry, versionEntriesFor_cons, htab, List.foldl_append, List.foldl_cons]
      show (versionEntriesFor w.current k).foldl pickLatest (some (w.unique_id, val)) =
        some (w.unique_id, val)
      exact foldl_pickLatest_keep (mem_versionEntriesFor_lt hinv.2.1)

/-- C1.  Read-your-writes: for every batch B of key/value pairs, after
`write_batch(B)` returns success, the snapshot pinned right afterward
satisfies: for every `(k, Put(v))` in B, `get(k) = Some(v)`, and for every
`(k, Delete)` in B, `get(k) = None`.  The snapshot pinned after the call is
read through `readPinned`; the object store does not fail on the read
(`okFetch`). -/
theorem claimC1_read_your_writes {w w' : World}
    {b : List (Bytes × HummockValue Bytes)} {up} {k v : Bytes}
    (hinv : WorldInv w) (hw : write_batch w b up = some (.ok (), w')) :
    ((k, HummockValue.put v) ∈ b →
      readPinned (get_snapshot w').2 (get_snapshot w').1 okFetch k =
        some (.ok (some v))) ∧
    ((k, HummockValue.delete) ∈ b →
      readPinned (get_snapshot w').2 (get_snapshot w').1 okFetch k =
        some (.ok none)) := by
  have hread : ∀ res : Except HummockError (Option Bytes),
      snapshotGet w'.current okFetch k = res →
      readPinned (get_snapshot w').2 (get_snapshot w').1 okFetch k = some res := by
    intro res hres
    rw [readPinned, get_snapshot]
    show ((w'.pinned ++ [w'.current]).get? w'.pinned.length).map _ = _
    rw [get?_append_singleton, Option.map_some', hres]
  constructor <;> intro hm
  · refine hread _ ?_
    rw [snapshotGet, fetchAll_okFetch, write_batch_latest hinv hw hm]
  · refine hread _ ?_
    rw [snapshotGet, fetchAll_okFetch, write_batch_latest hinv hw hm]

/-- Witness for C1: on a fresh store, writing a batch with a put on key `[1]`
and a delete on key `[2]` makes the next snapshot see `Some [7]` for `[1]` and
`None` for `[2]`. -/
theorem claimC1_witness :
    WorldInv (freshWorld true) ∧
    write_batch (freshWorld true) sampleBatch (.ok ()) = some (.ok (), sampleWorld1) ∧
    readPinned (get_snapshot sampleWorld1).2 (get_snapshot sampleWorld1).1 okFetch [1] =
      some (.ok (some [7])) ∧
    readPinned (get_snapshot sampleWorld1).2 (get_snapshot sampleWorld1).1 okFetch [2] =
      some (.ok none) :=
  ⟨by decide, by decide,
   (@claimC1_read_your_writes (freshWorld true) sampleWorld1 sampleBatch (.ok ()) [1] [7]
     (by decide) (by decide)).1 (by decide),
   (@claimC1_read_your_writes (freshWorld true) sampleWorld1 sampleBatch (.ok ()) [2] [0]
     (by decide) (by decide)).2 (by decide)⟩

theorem get?_some_mem {α : Type} : ∀ {l : List α} {i : Nat} {a : α},
    l.get? i = some a → a ∈ l := by
  intro l
  induction l with
  | nil => intro i a h; cases h
  | cons x xs ih =>
    intro i a h
    cases i with
    | zero => rw [List.get?_cons_zero, Option.some.injEq] at h; exact h ▸ List.mem_cons_self x xs
    | succ j => exact List.mem_cons_of_mem x (ih (List.get?_cons_succ .. ▸ h))

/-- C2.  Snapshot isolation: a snapshot pinned before a `write_batch` call is
backed by an immutable version, so every read through it — point `get` and
`range_scan` alike, hence the quantification over an arbitrary read function —
returns the same result after the write and after any later
`commit_compaction`; and no entry visible to that snapshot carries the epoch
the later batch was assigned (`w.unique_id`), so the snapshot never observes
that batch. -/
theorem claimC2_snapshot_isolation {w : World} {i : Nat} {V : Version}
    {b : List (Bytes × HummockValue Bytes)} {up r} {w' : World}
    (hpin : w.pinned.get? i = some V) (hinv : WorldInv w)
    (hw : write_batch w b up = some (r, w')) :
    (∀ {α : Type} (read : Version → α),
      (w'.pinned.get? i).map read = some (read V) ∧
      ∀ out conflict,
        (((commitCompaction w' out conflict).2).pinned.get? i).map read =
          some (read V)) ∧
    (∀ t ∈ V, t.id ≠ w.unique_id ∧ ∀ p ∈ t.entries, epoch_of p.1 < w.unique_id) := by
  have hpinned : w'.pinned = w.pinned := (write_batch_frame hw).1
  have hbelow := hinv.2.2 V (get?_some_mem hpin)
  refine ⟨fun read => ⟨?_, ?_⟩, fun t ht => ⟨Nat.ne_of_lt (hbelow t ht).1, (hbelow t ht).2⟩⟩
  · rw [hpinned, hpin, Option.map_some']
  · intro out conflict
    have hcc : ((commitCompaction w' out conflict).2).pinned = w'.pinned := by
      rw [commitCompaction]
      split <;> rfl
    rw [hcc, hpinned, hpin, Option.map_some']

/-- Witness for C2: pin the snapshot produced after the first sample write,
run another `write_batch`, and observe the pinned snapshot read is the value
read from the pinned version. -/
theorem claimC2_witness :
    (get_snapshot sampleWorld1).2.pinned.get? 0 = some sampleWorld1.current ∧
    WorldInv (get_snapshot sampleWorld1).2 ∧
    write_batch (get_snapshot sampleWorld1).2 [] (.ok ()) =
      some (.ok (), bumpEpoch (get_snapshot sampleWorld1).2) ∧
    ((bumpEpoch (get_snapshot sampleWorld1).2).pinned.get? 0).map
        (fun V => snapshotGet V okFetch [1]) =
      some (snapshotGet sampleWorld1.current okFetch [1]) :=
  ⟨by decide, by decide, by decide,
   ((@claimC2_snapshot_isolation (get_snapshot sampleWorld1).2 0 sampleWorld1.current []
       (.ok ()) (.ok ()) (bumpEpoch (get_snapshot sampleWorld1).2)
       (by decide) (by decide) (by decide)).1
     (fun V => snapshotGet V okFetch [1])).1⟩

/-- C3.  Empty batch is a no-op: `write_batch` over an iterator producing no
entries returns `Ok(())`, publishes no table (current version unchanged),
leaves pinned versions alone, uploads nothing to the object store, does not
touch the `put_bytes` counter, and sends no compaction notification.  Only the
epoch counter is consumed by the `fetch_add` that precedes the emptiness
check. -/
theorem claimC3_empty_batch (w : World) (up : Except HummockError Unit) :
    write_batch w [] up = some (.ok (), bumpEpoch w) ∧
    (bumpEpoch w).current = w.current ∧
    (bumpEpoch w).pinned = w.pinned ∧
    (bumpEpoch w).objects = w.objects ∧
    (bumpEpoch w).put_bytes = w.put_bytes ∧
    (bumpEpoch w).notify_count = w.notify_count :=
  ⟨rfl, rfl, rfl, rfl, rfl, rfl⟩

/-- Along a run of `write_batch` calls that all return, the epochs handed out
are consecutive, starting from the initial counter value (as long as the
counter does not wrap). -/
theorem runWrites_epochs :
    ∀ {calls : List (List (Bytes × HummockValue Bytes) × Except HummockError Unit)}
      {w : World} {eps wf},
      runWrites w calls = some (eps, wf) → w.unique_id + calls.length ≤ U64 →
      eps = List.range' w.unique_id calls.length := by
  intro calls
  induction calls with
  | nil =>
    intro w eps wf h _
    simp only [runWrites, Option.some.injEq, Prod.mk.injEq] at h
    rw [← h.1]
    rfl
  | cons c rest ih =>
    intro w eps wf h hlen
    obtain ⟨bb, up⟩ := c
    simp only [runWrites] at h
    cases hwb : write_batch w bb up with
    | none => rw [hwb] at h; cases h
    | some p =>
      obtain ⟨r, w1⟩ := p
      rw [hwb] at h
      dsimp only [] at h
      rw [Option.map_eq_some'] at h
      obtain ⟨⟨eps', wf'⟩, hrun, heq⟩ := h
      cases heq
      show w.unique_id :: eps' = List.range' w.unique_id (rest.length + 1)
      have hr1 : List.range' w.unique_id (rest.length + 1) =
          w.unique_id :: List.range' (w.unique_id + 1) rest.length := rfl
      rw [hr1]
      congr 1
      cases rest with
      | nil =>
        simp only [runWrites, Option.some.injEq, Prod.mk.injEq] at hrun
        rw [← hrun.1]
        rfl
      | cons c2 rest2 =>
        have hu : w1.unique_id = w.unique_id + 1 := by
          have hfr := (write_batch_frame hwb).2.1
          simp only [List.length_cons] at hlen
          rw [hfr]
          exact Nat.mod_eq_of_lt (by omega)
        have hb2 : w1.unique_id + (c2 :: rest2).length ≤ U64 := by
          rw [hu]
          simp only [List.length_cons] at hlen ⊢
          omega
        have hres := ih hrun hb2
        rw [hu] at hres
        exact hres

/-- C4.  Epoch allocation: on a fresh `HummockStorage`, the i-th `write_batch`
call (counting from 0) is assigned epoch i — epochs start at 0 and increase by
exactly 1 per returning call, including the calls that end empty or with a
failed upload, so a consumed epoch is never reused (`List.range` has no
duplicates); on the success path the published table carries the epoch as its
table id and every appended key carries that same epoch inside its full key;
and every returning call advances the counter by exactly one. -/
theorem claimC4_epoch_allocation :
    (∀ (s : Bool) calls eps wf,
        runWrites (freshWorld s) calls = some (eps, wf) → calls.length ≤ U64 →
        eps = List.range calls.length) ∧
    (∀ (w : World) b up w', b ≠ [] → write_batch w b up = some (.ok (), w') →
        w'.current =
          { id := w.unique_id,
            entries := b.map fun p => (key_with_ts p.1 w.unique_id, p.2) } :: w.current) ∧
    (∀ (w : World) b up r w', write_batch w b up = some (r, w') →
        w'.unique_id = (w.unique_id + 1) % U64) := by
  refine ⟨?_, ?_, ?_⟩
  · intro s calls eps wf h hlen
    have hres := runWrites_epochs h (by show 0 + calls.length ≤ U64; omega)
    rw [hres]
    exact (List.range_eq_range' _).symm
  · intro w b up w' hb hw
    rcases write_batch_cases hw with ⟨rfl, -, -⟩ | ⟨-, -, ⟨e, -, hre, -⟩ | ⟨-, -, rfl⟩⟩
    · exact absurd rfl hb
    · cases hre
    · rfl
  · intro w b up r w' hw
    exact (write_batch_frame hw).2.1

/-- Witness for C4: two empty batches on a fresh store get epochs 0 and 1 (and
still consume them), and the sample write publishes table id 0 with epoch 0
inside every key. -/
theorem claimC4_witness :
    runWrites (freshWorld true) [([], .ok ()), ([], .ok ())] =
      some ([0, 1], bumpEpoch (bumpEpoch (freshWorld true))) ∧
    [0, 1] = List.range 2 ∧
    write_batch (freshWorld true) sampleBatch (.ok ()) = some (.ok (), sampleWorld1) ∧
    sampleWorld1.current =
      { id := (freshWorld true).unique_id,
        entries :=
          sampleBatch.map fun p => (key_with_ts p.1 (freshWorld true).unique_id, p.2) }
        :: (freshWorld true).current :=
  ⟨by decide,
   claimC4_epoch_allocation.1 true [([], .ok ()), ([], .ok ())] [0, 1]
     (bumpEpoch (bumpEpoch (freshWorld true))) (by decide) (by decide),
   by decide,
   claimC4_epoch_allocation.2.1 (freshWorld true) sampleBatch (.ok ()) sampleWorld1
     (by decide) (by decide)⟩

/-- C5.  Write-path input validation: `write_batch` asserts that every user
key is non-empty (`assert!(!k.is_empty())`) and that the pairs are strictly
increasing by user key (builder ordering assertion, section 4.5 step 1); a
batch violating either condition makes the call panic (`none`) instead of
writing anything. -/
theorem claimC5_write_validation (w : World)
    (b : List (Bytes × HummockValue Bytes)) (up : Except HummockError Unit)
    (h : (∃ p ∈ b, p.1 = ([] : Bytes)) ∨
        ¬ List.Chain' (fun x y => ukLt x y = true) (b.map Prod.fst)) :
    write_batch w b up = none := by
  cases haa : addAll w.unique_id none b with
  | none =>
    unfold write_batch
    rw [haa]
  | some es =>
    exfalso
    rcases h with ⟨p, hp, hpnil⟩ | hns
    · exact addAll_some_keys_ne_nil haa p hp hpnil
    · exact hns (addAll_some_chain haa)

/-- Witness for C5: a batch containing an empty user key panics instead of
being written. -/
theorem claimC5_witness :
    write_batch (freshWorld true) [([], HummockValue.put [1])] (.ok ()) = none :=
  claimC5_write_validation (freshWorld true) [([], HummockValue.put [1])] (.ok ())
    (Or.inl (by decide))

/-- C6.  Write failure atomicity: when the upload of the table of a non-empty
batch fails, `write_batch` returns exactly that error and mutates nothing but
the already-consumed epoch counter: the version manager state (current and
pinned versions), the object store, the `put_bytes` counter and the
compaction-notify channel are untouched, because publication is the final step
after a successful upload. -/
theorem claimC6_failure_atomicity {w : World}
    {b : List (Bytes × HummockValue Bytes)} {e : HummockError} {r} {w' : World}
    (hb : b ≠ []) (h : write_batch w b (.error e) = some (r, w')) :
    r = .error e ∧ w'.current = w.current ∧ w'.pinned = w.pinned ∧
    w'.objects = w.objects ∧ w'.put_bytes = w.put_bytes ∧
    w'.notify_count = w.notify_count ∧
    w'.unique_id = (w.unique_id + 1) % U64 := by
  rcases write_batch_cases h with ⟨rfl, -, -⟩ | ⟨-, -, ⟨e2, hup, hre, rfl⟩ | ⟨hup, -, -⟩⟩
  · exact absurd rfl hb
  · rw [Except.error.injEq] at hup
    rw [← hup] at hre
    exact ⟨hre, rfl, rfl, rfl, rfl, rfl, rfl⟩
  · cases hup

/-- Witness for C6: the sample batch with a failing upload returns the
object-store error and leaves everything but the epoch counter unchanged. -/
theorem claimC6_witness :
    write_batch (freshWorld true) sampleBatch (.error .objectStoreError) =
      some (.error .objectStoreError, bumpEpoch (freshWorld true)) ∧
    (bumpEpoch (freshWorld true)).current = (freshWorld true).current ∧
    (bumpEpoch (freshWorld true)).put_bytes = (freshWorld true).put_bytes ∧
    (bumpEpoch (freshWorld true)).notify_count = (freshWorld true).notify_count := by
  have h : write_batch (freshWorld true) sampleBatch (.error .objectStoreError) =
      some (.error .objectStoreError, bumpEpoch (freshWorld true)) := by decide
  have hc := claimC6_failure_atomicity (by decide) h
  exact ⟨h, hc.2.1, hc.2.2.2.2.1, hc.2.2.2.2.2.1⟩

/-! Helper lemmas: the `put_bytes` counter and the uploaded blobs. -/

theorem blobLenSum_append (o : List (Nat × Bytes)) (x : Nat × Bytes) :
    blobLenSum (o ++ [x]) = blobLenSum o + x.2.length := by
  simp [blobLenSum]

theorem write_batch_objects_put {w : World} {b up r w'}
    (h : write_batch w b up = some (r, w')) :
    (w'.objects = w.objects ∧ w'.put_bytes = w.put_bytes) ∨
    (w'.objects = w.objects ++ [(w.unique_id, writeBlob w b)] ∧
      w'.put_bytes =
        if w.stats_enabled then (w.put_bytes + (writeBlob w b).length) % U64
        else w.put_bytes) := by
  rcases write_batch_cases h with ⟨-, -, rfl⟩ | ⟨-, -, ⟨e, -, -, rfl⟩ | ⟨-, -, rfl⟩⟩
  · exact Or.inl ⟨rfl, rfl⟩
  · exact Or.inl ⟨rfl, rfl⟩
  · exact Or.inr ⟨rfl, rfl⟩

theorem runWrites_sum_le :
    ∀ {calls : List (List (Bytes × HummockValue Bytes) × Except HummockError Unit)}
      {w : World} {eps wf}, runWrites w calls = some (eps, wf) →
      blobLenSum w.objects ≤ blobLenSum wf.objects := by
  intro calls
  induction calls with
  | nil =>
    intro w eps wf h
    simp only [runWrites, Option.some.injEq, Prod.mk.injEq] at h
    rw [← h.2]
  | cons c rest ih =>
    intro w eps wf h
    obtain ⟨bb, up⟩ := c
    simp only [runWrites] at h
    cases hwb : write_batch w bb up with
    | none => rw [hwb] at h; cases h
    | some p =>
      obtain ⟨r, w1⟩ := p
      rw [hwb] at h
      dsimp only [] at h
      rw [Option.map_eq_some'] at h
      obtain ⟨⟨eps', wf'⟩, hrun, heq⟩ := h
      cases heq
      have h1 : blobLenSum w.objects ≤ blobLenSum w1.objects := by
        rcases write_batch_objects_put hwb with ⟨ho, -⟩ | ⟨ho, -⟩
        · rw [ho]
        · rw [ho, blobLenSum_append]
          omega
      exact Nat.le_trans h1 (ih hrun)

theorem runWrites_stats :
    ∀ {calls : List (List (Bytes × HummockValue Bytes) × Except HummockError Unit)}
      {w : World} {eps wf}, runWrites w calls = some (eps, wf) →
      wf.stats_enabled = w.stats_enabled := by
  intro calls
  induction calls with
  | nil =>
    intro w eps wf h
    simp only [runWrites, Option.some.injEq, Prod.mk.injEq] at h
    rw [← h.2]
  | cons c rest ih =>
    intro w eps wf h
    obtain ⟨bb, up⟩ := c
    simp only [runWrites] at h
    cases hwb : write_batch w bb up with
    | none => rw [hwb] at h; cases h
    | some p =>
      obtain ⟨r, w1⟩ := p
      rw [hwb] at h
      dsimp only [] at h
      rw [Option.map_eq_some'] at h
      obtain ⟨⟨eps', wf'⟩, hrun, heq⟩ := h
      cases heq
      rw [ih hrun]
      exact (write_batch_frame hwb).2.2.2

theorem runWrites_put_bytes :
    ∀ {calls : List (List (Bytes × HummockValue Bytes) × Except HummockError Unit)}
      {w : World} {eps wf}, runWrites w calls = some (eps, wf) →
      w.stats_enabled = true → w.put_bytes = blobLenSum w.objects →
      blobLenSum wf.objects < U64 → wf.put_bytes = blobLenSum wf.objects := by
  intro calls
  induction calls with
  | nil =>
    intro w eps wf h _ hpb _
    simp only [runWrites, Option.some.injEq, Prod.mk.injEq] at h
    rw [← h.2]
    exact hpb
  | cons c rest ih =>
    intro w eps wf h hstats hpb hlt
    obtain ⟨bb, up⟩ := c
    simp only [runWrites] at h
    cases hwb : write_batch w bb up with
    | none => rw [hwb] at h; cases h
    | some p =>
      obtain ⟨r, w1⟩ := p
      rw [hwb] at h
      dsimp only [] at h
      rw [Option.map_eq_some'] at h
      obtain ⟨⟨eps', wf'⟩, hrun, heq⟩ := h
      dsimp only [] at heq
      cases heq
      have hs1 : w1.stats_enabled = true := by
        rw [(write_batch_frame hwb).2.2.2]
        exact hstats
      have hpb1 : w1.put_bytes = blobLenSum w1.objects := by
        rcases write_batch_objects_put hwb with ⟨ho, hp⟩ | ⟨ho, hp⟩
        · rw [hp, ho, hpb]
        · have hb1 : blobLenSum w1.objects =
              blobLenSum w.objects + (writeBlob w bb).length := by
            rw [ho, blobLenSum_append]
          have hle := runWrites_sum_le hrun
          rw [hstats] at hp
          rw [if_pos rfl] at hp
          rw [hp, hpb, hb1]
          exact Nat.mod_eq_of_lt (by omega)
      exact ih hrun hs1 hpb1 hlt

/-- C7.  `put_bytes` accounting: when stats are enabled, every successful
non-empty `write_batch` appends exactly one blob to the object store and
increments the `hummock_put_bytes` counter by exactly the byte length of that
blob; consequently, along any run of `write_batch` calls on a fresh
stats-enabled store (whose uploads all come from the write path), the counter
equals the running sum of uploaded bytes and is monotonic. -/
theorem claimC7_put_bytes :
    (∀ (w : World) b up w', w.stats_enabled = true → b ≠ [] →
        write_batch w b up = some (.ok (), w') →
        w'.objects = w.objects ++ [(w.unique_id, writeBlob w b)] ∧
        w'.put_bytes = (w.put_bytes + (writeBlob w b).length) % U64) ∧
    (∀ calls eps wf, runWrites (freshWorld true) calls = some (eps, wf) →
        blobLenSum wf.objects < U64 → wf.put_bytes = blobLenSum wf.objects) ∧
    (∀ calls eps wf rest eps2 wf2,
        runWrites (freshWorld true) calls = some (eps, wf) →
        runWrites wf rest = some (eps2, wf2) → blobLenSum wf2.objects < U64 →
        wf.put_bytes ≤ wf2.put_bytes) := by
  have hfresh : ∀ calls eps wf, runWrites (freshWorld true) calls = some (eps, wf) →
      blobLenSum wf.objects < U64 → wf.put_bytes = blobLenSum wf.objects := by
    intro calls eps wf h hlt
    exact runWrites_put_bytes h rfl rfl hlt
  refine ⟨?_, hfresh, ?_⟩
  · intro w b up w' hstats hb hw
    rcases write_batch_cases hw with ⟨rfl, -, -⟩ | ⟨-, -, ⟨e, -, hre, -⟩ | ⟨-, -, rfl⟩⟩
    · exact absurd rfl hb
    · cases hre
    · refine ⟨rfl, ?_⟩
      show (if w.stats_enabled then (w.put_bytes + (writeBlob w b).length) % U64
            else w.put_bytes) = _
      rw [hstats]
      rw [if_pos rfl]
  · intro calls eps wf rest eps2 wf2 h1 h2 hlt2
    have hle : blobLenSum wf.objects ≤ blobLenSum wf2.objects := runWrites_sum_le h2
    have hwf : wf.put_bytes = blobLenSum wf.objects :=
      hfresh _ _ _ h1 (Nat.lt_of_le_of_lt hle hlt2)
    have hs : wf.stats_enabled = true := runWrites_stats h1
    have hwf2 : wf2.put_bytes = blobLenSum wf2.objects :=
      runWrites_put_bytes h2 hs hwf hlt2
    rw [hwf, hwf2]
    exact hle

/-- Witness for C7: the sample write on the fresh store uploads a 33-byte blob
and bumps the counter from 0 to exactly 33. -/
theorem claimC7_witness :
    (freshWorld true).stats_enabled = true ∧
    write_batch (freshWorld true) sampleBatch (.ok ()) = some (.ok (), sampleWorld1) ∧
    sampleWorld1.objects = (freshWorld true).objects ++
      [((freshWorld true).unique_id, writeBlob (freshWorld true) sampleBatch)] ∧
    sampleWorld1.put_bytes =
      ((freshWorld true).put_bytes + (writeBlob (freshWorld true) sampleBatch).length) % U64 := by
  have h : write_batch (freshWorld true) sampleBatch (.ok ()) =
      some (.ok (), sampleWorld1) := by decide
  have hc := claimC7_put_bytes.1 (freshWorld true) sampleBatch (.ok ()) sampleWorld1
    rfl (by decide) h
  exact ⟨rfl, h, hc.1, hc.2⟩

/-- C8.  `get` never masquerades errors as absence: it returns `Ok(None)` only
when the key has no visible entry in the pinned version or its latest entry is
a tombstone, and any failure raised while touching the store during the lookup
comes back as `Err`, never as `Ok(None)`. -/
theorem claimC8_no_masquerade (w : World) (f : Nat → Except HummockError Unit)
    (k : Bytes) :
    (hummock_get w f k = .ok none →
      latestEntry w.current k = none ∨
      ∃ e, latestEntry w.current k = some (e, HummockValue.delete)) ∧
    (∀ err, fetchAll w.current f = some err → hummock_get w f k = .error err) := by
  constructor
  · intro h
    rw [hummock_get, snapshotGet] at h
    cases hf : fetchAll w.current f with
    | some e => rw [hf] at h; cases h
    | none =>
      rw [hf] at h
      cases hl : latestEntry w.current k with
      | none => exact Or.inl rfl
      | some p =>
        obtain ⟨ep, val⟩ := p
        cases val with
        | put bytes =>
          rw [hl] at h
          dsimp only [] at h
          cases h
        | delete => exact Or.inr ⟨ep, rfl⟩
  · intro err herr
    rw [hummock_get, snapshotGet, herr]

/-- Witness for C8: on the sample store with an always-failing fetch oracle,
`get` surfaces the checksum error instead of returning `Ok(None)`. -/
theorem claimC8_witness :
    fetchAll sampleWorld1.current badFetch = some .checksumMismatch ∧
    hummock_get sampleWorld1 badFetch [1] = .error .checksumMismatch :=
  ⟨by decide,
   (claimC8_no_masquerade sampleWorld1 badFetch [1]).2 .checksumMismatch (by decide)⟩

/-- C9.  Compactor lifetime: `start_compactor` takes the notifier and then
loops until the stop signal, and only a stop makes it return `Ok(())`; a
`VersionConflict` raised by a compaction run is swallowed by
`Compactor::compact` (logged, per the spec) so the loop simply waits for the
next wake instead of terminating the task. -/
theorem claimC9_compactor_lifetime :
    (∀ (w : World) pre post, w.rx_taken = false →
        (∀ e ∈ pre, e = CompactorEvent.stop ∨ e = .notify (.ok ()) ∨
          e = .notify (.error .versionConflict)) →
        start_compactor w (pre ++ CompactorEvent.stop :: post) =
          some ({ w with rx_taken := true }, some (.ok ()))) ∧
    (∀ rest, compactorLoop (CompactorEvent.notify (.error .versionConflict) :: rest) =
        compactorLoop rest) ∧
    (∀ events, compactorLoop events = some (.ok ()) → CompactorEvent.stop ∈ events) := by
  have hloop : ∀ (pre post : List CompactorEvent),
      (∀ e ∈ pre, e = CompactorEvent.stop ∨ e = .notify (.ok ()) ∨
        e = .notify (.error .versionConflict)) →
      compactorLoop (pre ++ CompactorEvent.stop :: post) = some (.ok ()) := by
    intro pre
    induction pre with
    | nil => intro post _; rfl
    | cons e pre' ih =>
      intro post hpre
      rcases hpre e (List.mem_cons_self e pre') with rfl | rfl | rfl
      · rfl
      · exact ih post fun x hx => hpre x (List.mem_cons_of_mem _ hx)
      · exact ih post fun x hx => hpre x (List.mem_cons_of_mem _ hx)
  refine ⟨?_, fun rest => rfl, ?_⟩
  · intro w pre post hrx hpre
    have ht : take_compact_notifier w = some { w with rx_taken := true } := by
      rw [take_compact_notifier, hrx]
      rfl
    rw [start_compactor, ht, hloop pre post hpre]
  · intro events
    induction events with
    | nil => intro h; cases h
    | cons e rest ih =>
      cases e with
      | stop => intro _; exact List.mem_cons_self _ _
      | notify j =>
        intro h
        rw [compactorLoop] at h
        cases hc : compactOnce j with
        | ok u =>
          rw [hc] at h
          exact List.mem_cons_of_mem _ (ih h)
        | error e2 =>
          rw [hc] at h
          dsimp only [] at h
          rw [Option.some.injEq] at h
          cases h

/-- Witness for C9: a fresh store, two wakes (one conflicting and one clean
compaction) and then a stop: the compactor returns `Ok(())`. -/
theorem claimC9_witness :
    start_compactor (freshWorld true)
        ([CompactorEvent.notify (.error .versionConflict),
          CompactorEvent.notify (.ok ())] ++ CompactorEvent.stop :: []) =
      some ({ freshWorld true with rx_taken := true }, some (.ok ())) :=
  claimC9_compactor_lifetime.1 (freshWorld true)
    [CompactorEvent.notify (.error .versionConflict), CompactorEvent.notify (.ok ())]
    [] rfl (by decide)

/-- C10.  Implicit single-start of the compactor: the setup of
`start_compactor` takes the sole receiver out of the shared `Option` under the
mutex and unwraps it.  The shared state of a `HummockStorage` and all its
clones is one `World`, so the take succeeds at most once over the lifetime of
that shared state: the first call on a fresh store succeeds, and any call on a
state produced by a successful take panics (`none`) instead of starting
another compactor. -/
theorem claimC10_single_start :
    (∀ w : World, w.rx_taken = false →
        take_compact_notifier w = some { w with rx_taken := true }) ∧
    (∀ w w' : World, take_compact_notifier w = some w' →
        take_compact_notifier w' = none) ∧
    (∀ s : Bool, (freshWorld s).rx_taken = false) := by
  refine ⟨?_, ?_, fun s => rfl⟩
  · intro w hrx
    rw [take_compact_notifier, hrx]
    rfl
  · intro w w' h
    rw [take_compact_notifier] at h
    cases hrx : w.rx_taken with
    | true => rw [hrx] at h; cases h
    | false =>
      rw [hrx] at h
      rw [if_neg Bool.false_ne_true] at h
      rw [Option.some.injEq] at h
      rw [take_compact_notifier, ← h]
      rfl

/-- Witness for C10: taking the notifier on a fresh store succeeds once, and a
second take on the resulting state panics. -/
theorem claimC10_witness :
    take_compact_notifier (freshWorld true) =
      some { freshWorld true with rx_taken := true } ∧
    take_compact_notifier { freshWorld true with rx_taken := true } = none :=
  ⟨claimC10_single_start.1 (freshWorld true) rfl,
   claimC10_single_start.2.1 (freshWorld true) { freshWorld true with rx_taken := true }
     (by decide)⟩

end Hummock
